import Mathlib

/-!
# Verification of the module-typer schema compiler

Shallow embedding of the type-expression-to-schema compiler of the
`module-typer` repository: the `typeToJsonSchema` converter, the regular
expressions it relies on (modelled by explicit character-list scanners with
the exact match semantics of the JavaScript engine), the export enumerator
of `api.mjs`, and the manifest-based entry-point resolution.  All text is
represented as `List Char`; JSON values as the ordered-field tree `JVal`.
-/

namespace ModuleTyper

/-- Characters of a JavaScript string; all embedded text uses `List Char`. -/
def strL (s : String) : List Char := s.data

/-- JSON-like values produced by the schema synthesizer: JavaScript objects
with ordered fields; `undef` models JavaScript `undefined` (a property read
that misses). -/
inductive JVal where
  | undef : JVal
  | bool (b : Bool) : JVal
  | str (s : List Char) : JVal
  | arr (elems : List JVal) : JVal
  | obj (fields : List (List Char × JVal)) : JVal

/-- Association lookup on an object's ordered field list. -/
def assocGet : List (List Char × JVal) → List Char → Option JVal
  | [], _ => none
  | (k, v) :: rest, key => if k = key then some v else assocGet rest key

/-- JS property read `o[k]` on the JSON tree, `none` when absent. -/
def jsGet : JVal → List Char → Option JVal
  | .obj fs, key => assocGet fs key
  | _, _ => none

/-- JS property read yielding `undefined` when the key is absent. -/
def jsGetU (v : JVal) (key : List Char) : JVal := (jsGet v key).getD JVal.undef

/-- JS property assignment on a field list: replace in place if the key
exists, otherwise append at the end (JavaScript key-insertion order). -/
def setAssoc : List (List Char × JVal) → List Char → JVal → List (List Char × JVal)
  | [], key, v => [(key, v)]
  | (k, w) :: rest, key, v =>
    if k = key then (k, v) :: rest else (k, w) :: setAssoc rest key v

/-- JS property assignment `o.k = v`; the embedded code only ever assigns on
objects, so other values are left unchanged. -/
def jsSetField : JVal → List Char → JVal → JVal
  | .obj fs, key, v => .obj (setAssoc fs key v)
  | other, _, _ => other

/-- ASCII whitespace, sufficient for the `\s` class and `trim` on the text
this program manipulates. -/
def wsChar (c : Char) : Bool := c = ' ' || c = '\t' || c = '\n' || c = '\r'

/-- JS `String.prototype.trim`. -/
def jsTrim (l : List Char) : List Char :=
  ((l.dropWhile wsChar).reverse.dropWhile wsChar).reverse

/-- `isPre pat l` holds when `pat` is a leading segment of `l`. -/
def isPre : List Char → List Char → Bool
  | [], _ => true
  | _ :: _, [] => false
  | p :: ps, x :: xs => p == x && isPre ps xs

/-- `occursSub pat l`: `pat` occurs as a contiguous substring of `l`
(JS `String.prototype.includes`). -/
def occursSub (pat : List Char) : List Char → Bool
  | [] => isPre pat []
  | c :: rest => isPre pat (c :: rest) || occursSub pat rest

/-- JS `String.prototype.endsWith`. -/
def isSufB (pat l : List Char) : Bool := isPre pat.reverse l.reverse

/-- Worker for `splitOn`: scan left to right, breaking at each leftmost,
non-overlapping occurrence of the separator (JS `String.prototype.split`).
Fuelled: every step consumes at least one character of `xs`, so fuel
`xs.length` always reaches the `[]` case, where the fuel-exhausted clause
coincides with the regular one. -/
def splitGoF (sep : List Char) : Nat → List Char → List Char → List (List Char)
  | 0, xs, acc => [acc.reverse ++ xs]
  | _ + 1, [], acc => [acc.reverse]
  | f + 1, c :: rest, acc =>
    if isPre sep (c :: rest) then
      match sep with
      | [] => [acc.reverse ++ c :: rest]
      | _ :: stail => acc.reverse :: splitGoF sep f (rest.drop stail.length) []
    else
      splitGoF sep f rest (c :: acc)

/-- JS `text.split(sep)` for a non-empty separator. -/
def splitOn (sep : List Char) (s : List Char) : List (List Char) :=
  splitGoF sep s.length s []

/-- The `\w` character class: `[A-Za-z0-9_]`. -/
def wChar (c : Char) : Bool := c.isAlpha || c.isDigit || c = '_'

/-- Tail of one property-regex attempt, after the mandatory `:`: skip the
`\s*` run, then `[^;]+` must capture at least one character up to a
mandatory `;`.  When the first character after the whitespace run is `;`,
the engine backtracks the `\s*` so that `[^;]+` captures the last
whitespace character; in the other branch a `dropWhile` on non-`;`
characters yields nothing or a `;`-headed list, so the cons case is the
mandatory `;`. -/
def tryPropTail (nm : List Char) (opt : Bool) (s3 : List Char) :
    Option (List Char × Bool × List Char × List Char) :=
  match s3.dropWhile wsChar with
  | [] => none
  | d :: r1 =>
    if d = ';' then
      match s3.takeWhile wsChar with
      | [] => none
      | c :: cs => some (nm, opt, [(c :: cs).getLast (by simp)], r1)
    else
      match (d :: r1).dropWhile (fun e => e != ';') with
      | [] => none
      | _ :: r => some (nm, opt, (d :: r1).takeWhile (fun e => e != ';'), r)

/-- One attempt of the JS regex `/(\w+)(\?)?:\s*([^;]+);/` anchored at the
start of `s`: the `\w+` run must be non-empty, an optional `?` marker may
follow, then a mandatory `:` (a `?` not followed by `:` cannot be saved by
backtracking, since `:` never matches `?`); the rest is `tryPropTail`.  On
success returns the name capture, the optional marker, the type capture,
and the unconsumed remainder. -/
def tryPropMatch (s : List Char) :
    Option (List Char × Bool × List Char × List Char) :=
  match s.takeWhile wChar, s.dropWhile wChar with
  | [], _ => none
  | nm, '?' :: ':' :: s3 => tryPropTail nm true s3
  | nm, ':' :: s3 => tryPropTail nm false s3
  | _, _ => none

/-- Fuelled scan of the global property regex over `s` (the JS `exec` loop
in the object branch of `typeToJsonSchema`): on a failed attempt the start
position advances by one character, on a success it advances past the
matched `;`.  Each step consumes at least one character, so fuel
`s.length` always completes the scan. -/
def propScanF : Nat → List Char → List (List Char × Bool × List Char)
  | 0, _ => []
  | _ + 1, [] => []
  | f + 1, c :: rest =>
    match tryPropMatch (c :: rest) with
    | some (nm, opt, ty, r) => (nm, opt, ty) :: propScanF f r
    | none => propScanF f rest

/-- All matches of `/(\w+)(\?)?:\s*([^;]+);/g` over `s`. -/
def propScan (s : List Char) : List (List Char × Bool × List Char) :=
  propScanF s.length s

/-- Split `s` at the first occurrence of the character `c`: the pieces
strictly before and strictly after it. -/
def splitAtFirstChar (c : Char) : List Char → Option (List Char × List Char)
  | [] => none
  | a :: rest =>
    if a = c then some ([], rest)
    else (splitAtFirstChar c rest).map (fun pq => (a :: pq.1, pq.2))

/-- Split `s` at the last occurrence of the character `c`. -/
def splitAtLastChar (c : Char) (s : List Char) :
    Option (List Char × List Char) :=
  (splitAtFirstChar c s.reverse).map (fun pq => (pq.2.reverse, pq.1.reverse))

/-- Capture of the JS regex `/<(.+)>/s` (dotall, greedy): the text strictly
between the first `<` and the last `>`, provided at least one character
lies between them.  Used by `typeToJsonSchema` to pull the generic argument
out of a component type string. -/
def fcArgExtract (s : List Char) : Option (List Char) :=
  match splitAtLastChar '>' s with
  | none => none
  | some (before, _) =>
    match splitAtFirstChar '<' before with
    | none => none
    | some (_, inner) => if inner = [] then none else some inner

/-- Capture of the JS regex `/FC<([^>]+)>/` used by `getDetailedType` to
pull the props type name out of a component type string: the characters
after the first viable `FC<` up to the next `>` (the `[^>]+` class cannot
cross a `>`, so a nested generic argument is cut at its first `>`). -/
def fcNameExtract : List Char → Option (List Char)
  | [] => none
  | c :: rest =>
    if isPre (strL "FC<") (c :: rest) then
      let after := (c :: rest).drop 3
      let cap := after.takeWhile (fun d => d != '>')
      if cap ≠ [] ∧ after.dropWhile (fun d => d != '>') ≠ [] then some cap
      else fcNameExtract rest
    else fcNameExtract rest

/-- Attempt of the JS regex `/\(([^)]*)\)\s*=>\s*(.+)/` whose `\(` sits at
the position just before `rest`: the `[^)]*` capture runs to the next `)`
(a `dropWhile` on non-`)` characters yields nothing or a `)`-headed list,
so the cons case is that `)`), whitespace is skipped, a literal `=>` is
required, and the final `.+` demands a non-empty tail. -/
def tryFuncAt (rest : List Char) : Option (List Char × List Char) :=
  match rest.dropWhile (fun d => d != ')') with
  | [] => none
  | _ :: r2 =>
    match r2.dropWhile wsChar with
    | '=' :: '>' :: r4 =>
      if r4 = [] then none
      else some (rest.takeWhile (fun d => d != ')'), r4)
    | _ => none

/-- Leftmost match of `/\(([^)]*)\)\s*=>\s*(.+)/` over `s`: the raw
parameter-list capture and the raw text after the arrow (the return-type
capture differs from that raw tail only in leading whitespace, which the
caller's `trim` removes anyway). -/
def funcSigMatch : List Char → Option (List Char × List Char)
  | [] => none
  | c :: rest =>
    if c = '(' then
      match tryFuncAt rest with
      | some pr => some pr
      | none => funcSigMatch rest
    else funcSigMatch rest

/-- The union separator of the source: a pipe surrounded by single spaces. -/
def sepU : List Char := strL " | "

/-- One parameter of a function signature: `param.split(':')`, each part
trimmed, destructured as `[name, type]` with a falsy type defaulting to
`any`. -/
def parseParam (pstr : List Char) : List Char × List Char :=
  let parts := (splitOn (strL ":") pstr).map jsTrim
  let nm := parts.headD []
  let ty :=
    match parts with
    | _ :: t :: _ => if t = [] then strL "any" else t
    | _ => strL "any"
  (nm, ty)

/-- One layer of `typeToJsonSchema` from the source, with the recursive
occurrences abstracted as `rec`.  The branch order is that of the source:
primitives, arrays, React components, object literals, unions, function
types, and the opaque string-description fallback. -/
def t2jStep (rec : List Char → JVal) (s : List Char) : JVal :=
  if s = strL "string" then JVal.obj [(strL "type", JVal.str (strL "string"))]
  else if s = strL "number" then JVal.obj [(strL "type", JVal.str (strL "number"))]
  else if s = strL "boolean" then JVal.obj [(strL "type", JVal.str (strL "boolean"))]
  else if s = strL "null" then JVal.obj [(strL "type", JVal.str (strL "null"))]
  else if s = strL "undefined" then JVal.obj [(strL "type", JVal.str (strL "null"))]
  else if s = strL "any" ∨ s = strL "unknown" then JVal.obj []
  else if isSufB (strL "[]") s = true then
    JVal.obj [(strL "type", JVal.str (strL "array")),
      (strL "items", rec (s.take (s.length - 2)))]
  else if occursSub (strL "React.FC<") s = true ∨
      occursSub (strL "FunctionComponent<") s = true then
    match fcArgExtract s with
    | some cap =>
      if (jsTrim cap).head? = some '\x7b' ∧ (jsTrim cap).getLast? = some '\x7d' then
        JVal.obj [(strL "type", JVal.str (strL "object")),
          (strL "description", JVal.str (strL "React Component: " ++ s)),
          (strL "properties", jsGetU (rec (jsTrim cap)) (strL "properties"))]
      else
        JVal.obj [(strL "type", JVal.str (strL "object")),
          (strL "description", JVal.str (strL "React Component: " ++ s)),
          (strL "tsType", JVal.str s)]
    | none =>
      JVal.obj [(strL "type", JVal.str (strL "object")),
        (strL "description", JVal.str (strL "React Component: " ++ s)),
        (strL "tsType", JVal.str s)]
  else if s.head? = some '\x7b' ∧ s.getLast? = some '\x7d' then
    if (propScan s).filterMap (fun m => if m.2.1 then none else some m.1) = [] then
      JVal.obj [(strL "type", JVal.str (strL "object")),
        (strL "properties", JVal.obj ((propScan s).foldl
          (fun acc m => setAssoc acc m.1 (rec (jsTrim m.2.2))) []))]
    else
      JVal.obj [(strL "type", JVal.str (strL "object")),
        (strL "properties", JVal.obj ((propScan s).foldl
          (fun acc m => setAssoc acc m.1 (rec (jsTrim m.2.2))) [])),
        (strL "required", JVal.arr (((propScan s).filterMap
          (fun m => if m.2.1 then none else some m.1)).map JVal.str))]
  else if occursSub sepU s = true then
    match ((splitOn sepU s).map jsTrim).filter
        (fun t => !(t == strL "null" || t == strL "undefined")),
      ((splitOn sepU s).map jsTrim).any
        (fun t => t == strL "null" || t == strL "undefined") with
    | [t0], true => jsSetField (rec t0) (strL "nullable") (JVal.bool true)
    | _, _ => JVal.obj [(strL "oneOf",
        JVal.arr (((splitOn sepU s).map jsTrim).map rec))]
  else if occursSub (strL "=>") s = true ∨ s.head? = some '(' then
    match funcSigMatch s with
    | some pr =>
      JVal.obj [(strL "type", JVal.str (strL "object")),
        (strL "description", JVal.str (strL "Function: " ++ s)),
        (strL "parameters", JVal.arr
          ((if jsTrim pr.1 = [] then []
            else (splitOn (strL ",") pr.1).map parseParam).map (fun p =>
              JVal.obj [(strL "name", JVal.str p.1),
                (strL "schema", rec p.2)]))),
        (strL "returns", rec (jsTrim pr.2))]
    | none =>
      JVal.obj [(strL "type", JVal.str (strL "object")),
        (strL "description", JVal.str (strL "Function: " ++ s)),
        (strL "parameters", JVal.arr []),
        (strL "returns", rec (strL "any"))]
  else
    JVal.obj [(strL "type", JVal.str (strL "string")),
      (strL "description", JVal.str (strL "TypeScript type: " ++ s))]

/-- Fuelled form of `typeToJsonSchema`. -/
def t2jF : Nat → List Char → JVal
  | 0, _ => JVal.undef
  | f + 1, s => t2jStep (t2jF f) s

/-- The converter `typeToJsonSchema` of the source.  Every recursive call
is on strictly shorter text (or on the literal `any`, which needs no
further recursion), so fuel `length + 1` always suffices. -/
def typeToJsonSchema (s : List Char) : JVal := t2jF (s.length + 1) s

/-! ## Export enumerator (`exportNames` in `api.mjs`)

The TypeScript AST surface that `exportNames` inspects, reduced to the
node shapes and modifier kinds the walker actually tests. -/

/-- Modifier kinds tested by the walker (`ts.SyntaxKind` values). -/
inductive ModKind where
  | exportKw : ModKind
  | defaultKw : ModKind
  | typeKw : ModKind
  | otherMod : ModKind
deriving DecidableEq

/-- One element of a named-export clause `export { propertyName as name }`;
`propertyName` is absent for a plain `export { name }`. -/
structure ExportSpecifier where
  propertyName : Option (List Char)
  name : List Char
deriving DecidableEq

/-- Top-level statements distinguished by the walker.  A variable statement
carries the binding names of its declaration list (`none` for a
non-identifier binding pattern); function/class/enum declarations carry an
optional identifier. -/
inductive TopDecl where
  | exportDecl (clause : Option (List ExportSpecifier)) : TopDecl
  | varStatement (modifiers : List ModKind) (bindings : List (Option (List Char))) : TopDecl
  | funcDecl (modifiers : List ModKind) (name : Option (List Char)) : TopDecl
  | classDecl (modifiers : List ModKind) (name : Option (List Char)) : TopDecl
  | enumDecl (modifiers : List ModKind) (name : Option (List Char)) : TopDecl
  | exportAssign (isExportEquals : Bool) : TopDecl
  | otherStmt : TopDecl
deriving DecidableEq

/-- The guarded push used at every site of `exportNames`: append the name
only when it is not already present. -/
def pushNew (names : List (List Char)) (n : List Char) : List (List Char) :=
  if n ∈ names then names else names ++ [n]

/-- Action of `exportNames` on one top-level node, mirroring the
`if`/`else if` chain of the source: named-export clauses (skipping
`type`-keyed re-exports), exported variable/function/class/enum
declarations (skipping nodes with a `type` modifier, pushing the
declaration's own identifier), the default-keyword check (the source
writes it as a later `else if`, so a function or class with both `export`
and `default` modifiers is consumed by the previous branch and this one is
unreachable), and `export default <expression>` assignments. -/
def visitNode (names : List (List Char)) (node : TopDecl) : List (List Char) :=
  match node with
  | .exportDecl (some elems) =>
    elems.foldl (fun acc e =>
      if e.propertyName = some (strL "type") then acc else pushNew acc e.name) names
  | .exportDecl none => names
  | .varStatement mods bindings =>
    if ModKind.exportKw ∈ mods then
      if ModKind.typeKw ∈ mods then names
      else bindings.foldl (fun acc b =>
        match b with
        | some n => pushNew acc n
        | none => acc) names
    else names
  | .funcDecl mods nm =>
    if ModKind.exportKw ∈ mods then
      if ModKind.typeKw ∈ mods then names
      else
        match nm with
        | some n => pushNew names n
        | none => names
    else if ModKind.exportKw ∈ mods ∧ ModKind.defaultKw ∈ mods then
      pushNew names (strL "default")
    else names
  | .classDecl mods nm =>
    if ModKind.exportKw ∈ mods then
      if ModKind.typeKw ∈ mods then names
      else
        match nm with
        | some n => pushNew names n
        | none => names
    else if ModKind.exportKw ∈ mods ∧ ModKind.defaultKw ∈ mods then
      pushNew names (strL "default")
    else names
  | .enumDecl mods nm =>
    if ModKind.exportKw ∈ mods then
      if ModKind.typeKw ∈ mods then names
      else
        match nm with
        | some n => pushNew names n
        | none => names
    else names
  | .exportAssign isEq =>
    if isEq then names else pushNew names (strL "default")
  | .otherStmt => names

/-- `exportNames` of `api.mjs`: fold the walker over the source file's
top-level statements in source order. -/
def exportNames (decls : List TopDecl) : List (List Char) :=
  decls.foldl visitNode []

/-- The unguarded name sequence a node contributes, in source order (what
the walker would push without the `includes` dedup guard). -/
def rawNames (node : TopDecl) : List (List Char) :=
  match node with
  | .exportDecl (some elems) =>
    elems.filterMap (fun e =>
      if e.propertyName = some (strL "type") then none else some e.name)
  | .exportDecl none => []
  | .varStatement mods bindings =>
    if ModKind.exportKw ∈ mods then
      if ModKind.typeKw ∈ mods then []
      else bindings.filterMap id
    else []
  | .funcDecl mods nm =>
    if ModKind.exportKw ∈ mods then
      if ModKind.typeKw ∈ mods then []
      else nm.toList
    else if ModKind.exportKw ∈ mods ∧ ModKind.defaultKw ∈ mods then
      [strL "default"]
    else []
  | .classDecl mods nm =>
    if ModKind.exportKw ∈ mods then
      if ModKind.typeKw ∈ mods then []
      else nm.toList
    else if ModKind.exportKw ∈ mods ∧ ModKind.defaultKw ∈ mods then
      [strL "default"]
    else []
  | .enumDecl mods nm =>
    if ModKind.exportKw ∈ mods then
      if ModKind.typeKw ∈ mods then []
      else nm.toList
    else []
  | .exportAssign isEq => if isEq then [] else [strL "default"]
  | .otherStmt => []

/-- The raw exported-name sequence of a module, in source order. -/
def rawExportNames (decls : List TopDecl) : List (List Char) :=
  (decls.map rawNames).flatten

/-- Keep each name at the position of its first occurrence. -/
def firstDedup (l : List (List Char)) : List (List Char) :=
  l.foldl pushNew []

/-! ## Entry-point resolution and invocation outcome

`resolveMainFile` reads the manifest and requires a truthy `main` field;
the surrounding `fetchTypes` of the source catches the thrown error and
returns a structured `{ error }` value instead of a document.  Loading and
JSON-parsing of the manifest, and the TypeScript oracle that supplies the
per-export type strings, are external collaborators, passed in as explicit
values. -/

/-- The manifest (`package.json`) fields the resolver inspects; `main` is
`none` when the field is absent. -/
structure ManifestJson where
  main : Option (List Char)
deriving DecidableEq

/-- JS falsiness of the `main` field (`!packageJson.main`): absent or the
empty string. -/
def mainFalsy (m : ManifestJson) : Bool :=
  match m.main with
  | none => true
  | some v => v.isEmpty

/-- `resolveMainFile` after a successful manifest load: throw on a missing
`main` field, otherwise resolve the module path against the input path. -/
def resolveMainFile (inputPath : List Char) (m : ManifestJson) :
    Except (List Char) (List Char) :=
  if mainFalsy m then
    Except.error (strL "No \"main\" field found in package.json")
  else
    Except.ok (inputPath ++ '/' :: (m.main.getD []))

/-- `getExportsSchema`'s document assembly: the wrapper object with a
property per export, each converted by `typeToJsonSchema`. -/
def getExportsSchema (exps : List (List Char × List Char)) : JVal :=
  JVal.obj
    [(strL "$schema", JVal.str (strL "http://json-schema.org/draft-07/schema#")),
     (strL "type", JVal.str (strL "object")),
     (strL "properties",
       JVal.obj (exps.foldl
         (fun acc e => setAssoc acc e.1 (typeToJsonSchema e.2)) []))]

/-- Result of one `fetchTypes` invocation: either the structured
`{ error }` value produced by the catch-all handler, or the schema
document. -/
inductive FetchOutcome where
  | failure (msg : List Char) : FetchOutcome
  | document (doc : JVal) : FetchOutcome

/-- `fetchTypes` with its external collaborators made explicit:
`loadManifest` is the outcome of loading and parsing `package.json`
(`Except.error` for a load failure), and `oracle` maps the resolved module
path to the export list (name and oracle type string) that the TypeScript
checker produces for it.  A thrown resolution error is caught and returned
as the structured failure value. -/
def fetchTypes (inputPath : List Char)
    (loadManifest : Except (List Char) ManifestJson)
    (oracle : List Char → List (List Char × List Char)) : FetchOutcome :=
  match loadManifest with
  | .error e =>
    .failure (strL "Error reading package.json from directory: " ++ e)
  | .ok m =>
    match resolveMainFile inputPath m with
    | .error e => .failure e
    | .ok mainPath => .document (getExportsSchema (oracle mainPath))

/-! ## Helper definitions used by statements -/

/-- Number of fields of a JSON object (0 on non-objects); a convenient
discriminating projection. -/
def objFieldCount : JVal → Nat
  | .obj fs => fs.length
  | _ => 0

/-- Number of entries under a value's `properties` key. -/
def propsFieldCount (v : JVal) : Nat :=
  match jsGet v (strL "properties") with
  | some (.obj fs) => fs.length
  | _ => 0

/-- The module of claim C1:
`export const a = 1; export default function f(){}; export { a as b };`
as the top-level declaration list the walker sees. -/
def c1Module : List TopDecl :=
  [TopDecl.varStatement [ModKind.exportKw] [some (strL "a")],
   TopDecl.funcDecl [ModKind.exportKw, ModKind.defaultKw] (some (strL "f")),
   TopDecl.exportDecl (some [⟨some (strL "a"), strL "b"⟩])]

end ModuleTyper

namespace ModuleTyper

/-! ## Supporting lemmas -/

theorem pushNew_nodup {names : List (List Char)} {n : List Char}
    (h : names.Nodup) : (pushNew names n).Nodup := by
  unfold pushNew
  split
  · exact h
  · rename_i hn
    simp [List.nodup_append, h, hn]

theorem foldl_preserve {α β : Type} (P : β → Prop) (f : β → α → β)
    (hf : ∀ b a, P b → P (f b a)) :
    ∀ (l : List α) (b : β), P b → P (l.foldl f b) := by
  intro l
  induction l with
  | nil => intro b hb; exact hb
  | cons x xs ih => intro b hb; exact ih _ (hf _ _ hb)

theorem visitNode_nodup (names : List (List Char)) (node : TopDecl)
    (h : names.Nodup) : (visitNode names node).Nodup := by
  cases node with
  | exportDecl clause =>
    cases clause with
    | none => exact h
    | some elems =>
      refine foldl_preserve List.Nodup _ ?_ elems names h
      intro b a hb
      dsimp only
      split
      · exact hb
      · exact pushNew_nodup hb
  | varStatement mods bindings =>
    dsimp only [visitNode]
    split
    · split
      · exact h
      · refine foldl_preserve List.Nodup _ ?_ bindings names h
        intro b a hb
        cases a with
        | some n => exact pushNew_nodup hb
        | none => exact hb
    · exact h
  | funcDecl mods nm =>
    dsimp only [visitNode]
    split
    · split
      · exact h
      · cases nm with
        | some n => exact pushNew_nodup h
        | none => exact h
    · split
      · exact pushNew_nodup h
      · exact h
  | classDecl mods nm =>
    dsimp only [visitNode]
    split
    · split
      · exact h
      · cases nm with
        | some n => exact pushNew_nodup h
        | none => exact h
    · split
      · exact pushNew_nodup h
      · exact h
  | enumDecl mods nm =>
    dsimp only [visitNode]
    split
    · split
      · exact h
      · cases nm with
        | some n => exact pushNew_nodup h
        | none => exact h
    · exact h
  | exportAssign isEq =>
    dsimp only [visitNode]
    split
    · exact h
    · exact pushNew_nodup h
  | otherStmt => exact h

theorem foldl_pushNew_opt (l : List (Option (List Char))) :
    ∀ acc, l.foldl (fun acc b =>
        match b with
        | some n => pushNew acc n
        | none => acc) acc
      = (l.filterMap id).foldl pushNew acc := by
  induction l with
  | nil => intro acc; rfl
  | cons x xs ih =>
    intro acc
    cases x with
    | some n => simp [List.filterMap_cons, ih]
    | none => simp [List.filterMap_cons, ih]

theorem foldl_pushNew_spec (l : List ExportSpecifier) :
    ∀ acc, l.foldl (fun acc e =>
        if e.propertyName = some (strL "type") then acc
        else pushNew acc e.name) acc
      = (l.filterMap (fun e =>
          if e.propertyName = some (strL "type") then none
          else some e.name)).foldl pushNew acc := by
  induction l with
  | nil => intro acc; rfl
  | cons x xs ih =>
    intro acc
    by_cases hx : x.propertyName = some (strL "type")
    · simp [List.filterMap_cons, hx, ih]
    · simp [List.filterMap_cons, hx, ih]

theorem visitNode_eq_foldl (names : List (List Char)) (node : TopDecl) :
    visitNode names node = (rawNames node).foldl pushNew names := by
  cases node with
  | exportDecl clause =>
    cases clause with
    | none => rfl
    | some elems => exact foldl_pushNew_spec elems names
  | varStatement mods bindings =>
    dsimp only [visitNode, rawNames]
    split
    · split
      · rfl
      · exact foldl_pushNew_opt bindings names
    · rfl
  | funcDecl mods nm =>
    dsimp only [visitNode, rawNames]
    split
    · split
      · rfl
      · cases nm <;> rfl
    · split
      · rfl
      · rfl
  | classDecl mods nm =>
    dsimp only [visitNode, rawNames]
    split
    · split
      · rfl
      · cases nm <;> rfl
    · split
      · rfl
      · rfl
  | enumDecl mods nm =>
    dsimp only [visitNode, rawNames]
    split
    · split
      · rfl
      · cases nm <;> rfl
    · rfl
  | exportAssign isEq =>
    dsimp only [visitNode, rawNames]
    split
    · rfl
    · rfl
  | otherStmt => rfl

theorem foldl_visitNode_eq (decls : List TopDecl) :
    ∀ acc, decls.foldl visitNode acc = (rawExportNames decls).foldl pushNew acc := by
  induction decls with
  | nil => intro acc; rfl
  | cons d ds ih =>
    intro acc
    simp only [List.foldl_cons, rawExportNames, List.map_cons, List.flatten_cons,
      List.foldl_append]
    rw [visitNode_eq_foldl]
    exact ih _

theorem isPre_self_append (l t : List Char) : isPre l (l ++ t) = true := by
  induction l with
  | nil => rfl
  | cons c cs ih => simp [isPre, ih]

theorem isPre_length_le {p l : List Char} (h : isPre p l = true) :
    p.length ≤ l.length := by
  induction p generalizing l with
  | nil => simp
  | cons c cs ih =>
    cases l with
    | nil => exact absurd h (by simp [isPre])
    | cons x xs =>
      simp only [isPre, Bool.and_eq_true] at h
      have := ih h.2
      simp only [List.length_cons]
      omega

theorem isPre_append_left {p x y : List Char} (h : isPre p (x ++ y) = true)
    (hl : p.length ≤ x.length) : isPre p x = true := by
  induction p generalizing x with
  | nil => rfl
  | cons c cs ih =>
    cases x with
    | nil => simp at hl
    | cons a as =>
      simp only [List.cons_append, isPre, Bool.and_eq_true] at h ⊢
      refine ⟨h.1, ih h.2 ?_⟩
      simp only [List.length_cons] at hl
      omega

theorem isPre_append_mem {p x y : List Char} {b : Char}
    (h : isPre p (x ++ b :: y) = true) : isPre p x = true ∨ b ∈ p := by
  induction p generalizing x with
  | nil => exact Or.inl rfl
  | cons c cs ih =>
    cases x with
    | nil =>
      simp only [List.nil_append, isPre, Bool.and_eq_true] at h
      have hb : c = b := by simpa using h.1
      exact Or.inr (by simp [hb])
    | cons a as =>
      simp only [List.cons_append, isPre, Bool.and_eq_true] at h ⊢
      rcases ih h.2 with h2 | h2
      · exact Or.inl ⟨h.1, h2⟩
      · exact Or.inr (List.mem_cons_of_mem _ h2)

theorem isPre_drop_of_not_occurs {pat A : List Char}
    (h : occursSub pat A = false) : ∀ p, isPre pat (A.drop p) = false := by
  induction A with
  | nil =>
    intro p
    simpa [occursSub] using h
  | cons c rest ih =>
    have h2 : isPre pat (c :: rest) = false ∧ occursSub pat rest = false := by
      simpa [occursSub] using h
    intro p
    cases p with
    | zero => exact h2.1
    | succ q => simpa using ih h2.2 q

theorem occursSub_append_self (s0 : Char) (stail A B : List Char) :
    occursSub (s0 :: stail) (A ++ (s0 :: stail) ++ B) = true := by
  induction A with
  | nil =>
    have : (s0 :: stail) ++ B = s0 :: (stail ++ B) := rfl
    simp only [List.nil_append, this, occursSub, Bool.or_eq_true]
    exact Or.inl (isPre_self_append (s0 :: stail) B)
  | cons a as ih =>
    simp only [List.cons_append, occursSub, Bool.or_eq_true]
    right
    simpa [List.append_assoc] using ih

theorem occursSub_append_junction {pat A B : List Char} {b : Char}
    (hA : occursSub pat A = false) (hB : occursSub pat (b :: B) = false)
    (hb : b ∉ pat) : occursSub pat (A ++ b :: B) = false := by
  induction A with
  | nil => simpa using hB
  | cons c rest ih =>
    have h2 : isPre pat (c :: rest) = false ∧ occursSub pat rest = false := by
      simpa [occursSub] using hA
    have ht := ih h2.2
    have hcons : (c :: rest) ++ b :: B = c :: (rest ++ b :: B) := rfl
    rw [hcons, occursSub, Bool.or_eq_false_iff]
    refine ⟨?_, ht⟩
    by_contra hcon
    have hpre : isPre pat ((c :: rest) ++ b :: B) = true := by
      rw [hcons]
      cases hx : isPre pat (c :: (rest ++ b :: B)) with
      | true => rfl
      | false => exact absurd hx hcon
    rcases isPre_append_mem hpre with h3 | h3
    · rw [h2.1] at h3
      exact Bool.noConfusion h3
    · exact hb h3

theorem splitGoF_fuel (sep : List Char) :
    ∀ f g xs acc, xs.length ≤ f → xs.length ≤ g →
      splitGoF sep f xs acc = splitGoF sep g xs acc := by
  intro f
  induction f with
  | zero =>
    intro g xs acc h1 h2
    have hx : xs = [] := List.length_eq_zero.mp (by omega)
    subst hx
    cases g with
    | zero => rfl
    | succ g2 => simp [splitGoF]
  | succ f2 ih =>
    intro g xs acc h1 h2
    cases xs with
    | nil =>
      cases g with
      | zero => simp [splitGoF]
      | succ g2 => rfl
    | cons c rest =>
      obtain ⟨g2, rfl⟩ : ∃ g2, g = g2 + 1 :=
        ⟨g - 1, by simp only [List.length_cons] at h2; omega⟩
      simp only [List.length_cons] at h1 h2
      show splitGoF sep (f2+1) (c :: rest) acc = splitGoF sep (g2+1) (c :: rest) acc
      simp only [splitGoF]
      by_cases hp : isPre sep (c :: rest) = true
      · rw [if_pos hp, if_pos hp]
        cases sep with
        | nil => rfl
        | cons s0 stail =>
          dsimp only
          have hd : (rest.drop stail.length).length ≤ rest.length := by
            simp [List.length_drop]
          rw [ih g2 (rest.drop stail.length) [] (by omega) (by omega)]
      · rw [if_neg hp, if_neg hp]
        exact ih g2 rest (c :: acc) (by omega) (by omega)

theorem splitGoF_no_occ (sep : List Char) :
    ∀ f xs acc, occursSub sep xs = false →
      splitGoF sep f xs acc = [acc.reverse ++ xs] := by
  intro f
  induction f with
  | zero => intro xs acc h; rfl
  | succ f2 ih =>
    intro xs acc h
    cases xs with
    | nil => simp [splitGoF]
    | cons c rest =>
      have h2 : isPre sep (c :: rest) = false ∧ occursSub sep rest = false := by
        simpa [occursSub] using h
      simp only [splitGoF]
      rw [if_neg (by simp [h2.1])]
      rw [ih rest (c :: acc) h2.2]
      simp

theorem splitGoF_boundary (s0 : Char) (stail : List Char) :
    ∀ (A : List Char) (f : Nat) (acc B : List Char),
      A.length + 1 ≤ f →
      (∀ p, p < A.length →
        isPre (s0 :: stail) ((A ++ (s0 :: stail) ++ B).drop p) = false) →
      splitGoF (s0 :: stail) f (A ++ (s0 :: stail) ++ B) acc =
        (acc.reverse ++ A) :: splitGoF (s0 :: stail) (f - (A.length + 1)) B [] := by
  intro A
  induction A with
  | nil =>
    intro f acc B hf H
    obtain ⟨f2, rfl⟩ : ∃ f2, f = f2 + 1 := ⟨f - 1, by omega⟩
    have hshape : ([] : List Char) ++ (s0 :: stail) ++ B = s0 :: (stail ++ B) := by
      simp
    rw [hshape]
    simp only [splitGoF]
    rw [if_pos (show isPre (s0 :: stail) (s0 :: (stail ++ B)) = true from
      isPre_self_append (s0 :: stail) B)]
    have hdrop : (stail ++ B).drop stail.length = B := List.drop_left stail B
    rw [hdrop]
    simp
  | cons a A2 ih =>
    intro f acc B hf H
    obtain ⟨f2, rfl⟩ : ∃ f2, f = f2 + 1 :=
      ⟨f - 1, by simp only [List.length_cons] at hf; omega⟩
    have hshape : (a :: A2) ++ (s0 :: stail) ++ B
        = a :: (A2 ++ (s0 :: stail) ++ B) := by
      simp
    have h0 : isPre (s0 :: stail) (a :: (A2 ++ (s0 :: stail) ++ B)) = false := by
      have h00 := H 0 (by simp)
      rw [hshape] at h00
      exact h00
    rw [hshape]
    simp only [splitGoF]
    rw [if_neg (ne_true_of_eq_false h0)]
    have hrec := ih f2 (a :: acc) B
      (by simp only [List.length_cons] at hf; omega)
      (fun p hp => by
        have hq := H (p + 1) (by simp only [List.length_cons]; omega)
        rw [hshape] at hq
        simpa using hq)
    rw [hrec]
    have hfuel : f2 - (A2.length + 1) = f2 + 1 - ((a :: A2).length + 1) := by
      simp only [List.length_cons]
      omega
    rw [hfuel]
    simp

theorem splitGoF_piece_le (sep : List Char) :
    ∀ f xs acc piece, piece ∈ splitGoF sep f xs acc →
      piece.length ≤ acc.length + xs.length := by
  intro f
  induction f with
  | zero =>
    intro xs acc piece hm
    simp only [splitGoF, List.mem_singleton] at hm
    subst hm
    simp
  | succ f2 ih =>
    intro xs acc piece hm
    cases xs with
    | nil =>
      simp only [splitGoF, List.mem_singleton] at hm
      subst hm
      simp
    | cons c rest =>
      simp only [splitGoF] at hm
      by_cases hp : isPre sep (c :: rest) = true
      · rw [if_pos hp] at hm
        cases sep with
        | nil =>
          simp only [List.mem_singleton] at hm
          subst hm
          simp
        | cons s0 stail =>
          simp only [List.mem_cons] at hm
          rcases hm with hm | hm
          · subst hm
            simp only [List.length_reverse, List.length_cons]
            omega
          · have := ih _ _ _ hm
            simp only [List.length_nil, List.length_drop] at this
            simp only [List.length_cons]
            omega
      · rw [if_neg hp] at hm
        have := ih _ _ _ hm
        simp only [List.length_cons] at this ⊢
        omega

theorem splitGoF_piece_lt (s0 : Char) (stail : List Char) :
    ∀ f xs acc piece, occursSub (s0 :: stail) xs = true → xs.length ≤ f →
      piece ∈ splitGoF (s0 :: stail) f xs acc →
      piece.length + (s0 :: stail).length ≤ acc.length + xs.length := by
  intro f
  induction f with
  | zero =>
    intro xs acc piece hocc hlen hm
    have hx : xs = [] := List.length_eq_zero.mp (by omega)
    subst hx
    exact absurd hocc (by simp [occursSub, isPre])
  | succ f2 ih =>
    intro xs acc piece hocc hlen hm
    cases xs with
    | nil => exact absurd hocc (by simp [occursSub, isPre])
    | cons c rest =>
      simp only [splitGoF] at hm
      by_cases hp : isPre (s0 :: stail) (c :: rest) = true
      · rw [if_pos hp] at hm
        simp only [List.mem_cons] at hm
        rcases hm with hm | hm
        · subst hm
          have := isPre_length_le hp
          simp only [List.length_reverse]
          omega
        · have hple := splitGoF_piece_le (s0 :: stail) _ _ _ _ hm
          have hlp := isPre_length_le hp
          simp only [List.length_nil, List.length_drop, Nat.zero_add] at hple
          simp only [List.length_cons] at hlp ⊢
          omega
      · rw [if_neg hp] at hm
        have hocc2 : occursSub (s0 :: stail) rest = true := by
          have := hocc
          simp only [occursSub, Bool.or_eq_true] at this
          rcases this with h | h
          · exact absurd h (by simp [hp])
          · exact h
        have := ih rest (c :: acc) piece hocc2
          (by simp only [List.length_cons] at hlen; omega) hm
        simp only [List.length_cons] at this ⊢
        omega

theorem length_dropWhileChar_le (p : Char → Bool) (l : List Char) :
    (l.dropWhile p).length ≤ l.length := by
  induction l with
  | nil => simp
  | cons c cs ih =>
    rw [List.dropWhile_cons]
    split
    · simp only [List.length_cons]
      omega
    · simp

theorem jsTrim_length_le (l : List Char) : (jsTrim l).length ≤ l.length := by
  unfold jsTrim
  rw [List.length_reverse]
  calc ((l.dropWhile wsChar).reverse.dropWhile wsChar).length
      ≤ (l.dropWhile wsChar).reverse.length := length_dropWhileChar_le _ _
    _ = (l.dropWhile wsChar).length := List.length_reverse _
    _ ≤ l.length := length_dropWhileChar_le _ _

theorem splitAtFirstChar_eq {c : Char} {s p q : List Char}
    (h : splitAtFirstChar c s = some (p, q)) : s = p ++ c :: q := by
  induction s generalizing p with
  | nil => exact absurd h (by simp [splitAtFirstChar])
  | cons a rest ih =>
    rw [splitAtFirstChar] at h
    split at h
    · rename_i hac
      simp only [Option.some.injEq, Prod.mk.injEq] at h
      obtain ⟨rfl, rfl⟩ := h
      simp [hac]
    · rename_i hac
      rcases Option.map_eq_some'.mp h with ⟨⟨p2, q2⟩, hpq, heq⟩
      obtain ⟨rfl, rfl⟩ : a :: p2 = p ∧ q2 = q :=
        ⟨congrArg Prod.fst heq, congrArg Prod.snd heq⟩
      rw [ih hpq]
      simp

theorem splitAtLastChar_eq {c : Char} {s p q : List Char}
    (h : splitAtLastChar c s = some (p, q)) : s = p ++ c :: q := by
  unfold splitAtLastChar at h
  rcases Option.map_eq_some'.mp h with ⟨⟨p2, q2⟩, hpq, heq⟩
  obtain ⟨rfl, rfl⟩ : q2.reverse = p ∧ p2.reverse = q :=
    ⟨congrArg Prod.fst heq, congrArg Prod.snd heq⟩
  have hs := splitAtFirstChar_eq hpq
  have hrev : s = (p2 ++ c :: q2).reverse := by
    rw [← hs, List.reverse_reverse]
  rw [hrev]
  simp

theorem fcArgExtract_length {s inner : List Char}
    (h : fcArgExtract s = some inner) : inner.length + 2 ≤ s.length := by
  unfold fcArgExtract at h
  split at h
  · exact absurd h (by simp)
  · rename_i before aft hlast
    split at h
    · exact absurd h (by simp)
    · rename_i pre inner2 hfirst
      split at h
      · exact absurd h (by simp)
      · have hinner : inner2 = inner := by injection h
        subst hinner
        have h1 := splitAtLastChar_eq hlast
        have h2 := splitAtFirstChar_eq hfirst
        subst h2
        rw [h1]
        simp only [List.length_append, List.length_cons]
        omega

theorem tryPropTail_bounds {nm nm2 ty r s3 : List Char} {opt o2 : Bool}
    (h : tryPropTail nm opt s3 = some (nm2, o2, ty, r)) :
    ty.length + 1 ≤ s3.length ∧ r.length < s3.length := by
  have hsplit : s3.takeWhile wsChar ++ s3.dropWhile wsChar = s3 :=
    List.takeWhile_append_dropWhile wsChar s3
  have hslen : (s3.takeWhile wsChar).length + (s3.dropWhile wsChar).length
      = s3.length := by
    have hlen := congrArg List.length hsplit
    rw [List.length_append] at hlen
    exact hlen
  unfold tryPropTail at h
  split at h
  · exact absurd h (by simp)
  · rename_i d r1 hdw
    split at h
    · split at h
      · exact absurd h (by simp)
      · rename_i c cs hw
        simp only [Option.some.injEq, Prod.mk.injEq] at h
        obtain ⟨-, -, hty, hr⟩ := h
        have hty1 : ty.length = 1 := by rw [← hty]; rfl
        have hr1 : r.length = r1.length := by rw [← hr]
        rw [hdw, hw] at hslen
        simp only [List.length_cons] at hslen
        omega
    · split at h
      · exact absurd h (by simp)
      · rename_i e r0 hdw2
        simp only [Option.some.injEq, Prod.mk.injEq] at h
        obtain ⟨-, -, hty, hr⟩ := h
        have htd : ((d :: r1).takeWhile (fun e => e != ';')).length + r0.length + 1
            = r1.length + 1 := by
          have hx : (d :: r1).takeWhile (fun e => e != ';')
              ++ (d :: r1).dropWhile (fun e => e != ';') = d :: r1 :=
            List.takeWhile_append_dropWhile _ _
          have hlx := congrArg List.length hx
          rw [hdw2] at hlx
          simp only [List.length_append, List.length_cons] at hlx
          omega
        have hty1 : ty.length = ((d :: r1).takeWhile (fun e => e != ';')).length := by
          rw [← hty]
        have hr1 : r.length = r0.length := by rw [← hr]
        rw [hdw] at hslen
        simp only [List.length_cons] at hslen
        omega

theorem tryPropMatch_bounds {s nm ty r : List Char} {opt : Bool}
    (h : tryPropMatch s = some (nm, opt, ty, r)) :
    ty.length + 2 ≤ s.length ∧ r.length < s.length := by
  have hsplit : s.takeWhile wChar ++ s.dropWhile wChar = s :=
    List.takeWhile_append_dropWhile wChar s
  have hslen : (s.takeWhile wChar).length + (s.dropWhile wChar).length
      = s.length := by
    have hlen := congrArg List.length hsplit
    rw [List.length_append] at hlen
    exact hlen
  unfold tryPropMatch at h
  split at h
  · exact absurd h (by simp)
  · rename_i s3 hdw hne
    have hb := tryPropTail_bounds h
    have htwlen : 1 ≤ (s.takeWhile wChar).length := by
      cases hx : s.takeWhile wChar with
      | nil => exact (hne hx).elim
      | cons a as => simp
    rw [hdw] at hslen
    simp only [List.length_cons] at hslen
    omega
  · rename_i s3 hdw hne
    have hb := tryPropTail_bounds h
    have htwlen : 1 ≤ (s.takeWhile wChar).length := by
      cases hx : s.takeWhile wChar with
      | nil => exact (hne hx).elim
      | cons a as => simp
    rw [hdw] at hslen
    simp only [List.length_cons] at hslen
    omega
  · exact absurd h (by simp)

theorem propScanF_ty_le :
    ∀ f xs, ∀ m ∈ propScanF f xs, m.2.2.length + 2 ≤ xs.length := by
  intro f
  induction f with
  | zero => intro xs m hm; simp [propScanF] at hm
  | succ f2 ih =>
    intro xs m hm
    cases xs with
    | nil => simp [propScanF] at hm
    | cons c rest =>
      rcases htp : tryPropMatch (c :: rest) with - | ⟨nm, opt, ty, r⟩
      · rw [propScanF, htp] at hm
        have := ih rest m hm
        simp only [List.length_cons]
        omega
      · rw [propScanF, htp] at hm
        simp only [List.mem_cons] at hm
        rcases hm with hm | hm
        · subst hm
          exact (tryPropMatch_bounds htp).1
        · have h1 := ih r m hm
          have h2 := (tryPropMatch_bounds htp).2
          omega

theorem tryFuncAt_bounds {rest ps r4 : List Char}
    (h : tryFuncAt rest = some (ps, r4)) :
    ps.length + 3 ≤ rest.length ∧ r4.length + 3 ≤ rest.length := by
  have hsplit : rest.takeWhile (fun d => d != ')')
      ++ rest.dropWhile (fun d => d != ')') = rest :=
    List.takeWhile_append_dropWhile _ _
  have hslen : (rest.takeWhile (fun d => d != ')')).length
      + (rest.dropWhile (fun d => d != ')')).length = rest.length := by
    have hlen := congrArg List.length hsplit
    rw [List.length_append] at hlen
    exact hlen
  unfold tryFuncAt at h
  split at h
  · exact absurd h (by simp)
  · rename_i hd r2 hdw
    split at h
    · rename_i r40 hdw2
      split at h
      · exact absurd h (by simp)
      · simp only [Option.some.injEq, Prod.mk.injEq] at h
        obtain ⟨hps, hr4⟩ := h
        have h2 : (r2.dropWhile wsChar).length ≤ r2.length :=
          length_dropWhileChar_le _ _
        rw [hdw2] at h2
        simp only [List.length_cons] at h2
        have hps1 : ps.length = (rest.takeWhile (fun d => d != ')')).length := by
          rw [← hps]
        have hr41 : r4.length = r40.length := by rw [← hr4]
        rw [hdw] at hslen
        simp only [List.length_cons] at hslen
        omega
    · exact absurd h (by simp)

theorem funcSigMatch_bounds :
    ∀ s ps r4, funcSigMatch s = some (ps, r4) →
      ps.length + 4 ≤ s.length ∧ r4.length + 4 ≤ s.length := by
  intro s
  induction s with
  | nil => intro ps r4 h; exact absurd h (by simp [funcSigMatch])
  | cons c rest ih =>
    intro ps r4 h
    rw [funcSigMatch] at h
    split at h
    · rcases hta : tryFuncAt rest with - | ⟨ps0, r40⟩
      · rw [hta] at h
        have := ih ps r4 h
        simp only [List.length_cons]
        omega
      · rw [hta] at h
        simp only [Option.some.injEq] at h
        obtain ⟨rfl, rfl⟩ : ps0 = ps ∧ r40 = r4 :=
          ⟨congrArg Prod.fst h, congrArg Prod.snd h⟩
        have := tryFuncAt_bounds hta
        simp only [List.length_cons]
        omega
    · have := ih ps r4 h
      simp only [List.length_cons]
      omega

theorem parseParam_ty_bound (pstr : List Char) :
    (parseParam pstr).2 = strL "any" ∨ (parseParam pstr).2.length ≤ pstr.length := by
  rcases hp : (splitOn (strL ":") pstr).map jsTrim with - | ⟨p0, tl⟩
  · left
    unfold parseParam
    rw [hp]
  · rcases htl : tl with - | ⟨p1, prest⟩
    · left
      unfold parseParam
      rw [hp, htl]
    · by_cases hp1 : p1 = []
      · left
        unfold parseParam
        rw [hp, htl]
        simp [hp1]
      · right
        have hty : (parseParam pstr).2 = p1 := by
          unfold parseParam
          rw [hp, htl]
          simp [hp1]
        rw [hty]
        have hmem : p1 ∈ (splitOn (strL ":") pstr).map jsTrim := by
          rw [hp, htl]
          simp
        rcases List.mem_map.mp hmem with ⟨piece, hpc, hje⟩
        have h1 := splitGoF_piece_le (strL ":") pstr.length pstr [] piece hpc
        simp only [List.length_nil, Nat.zero_add] at h1
        calc p1.length = (jsTrim piece).length := by rw [← hje]
          _ ≤ piece.length := jsTrim_length_le piece
          _ ≤ pstr.length := h1


theorem union_member_bound {s t : List Char}
    (hocc : occursSub sepU s = true)
    (ht : t ∈ (splitOn sepU s).map jsTrim) : t.length < s.length := by
  rcases List.mem_map.mp ht with ⟨piece, hpc, hje⟩
  have hsep : sepU = ' ' :: '|' :: ' ' :: [] := rfl
  have hpc2 : piece ∈ splitGoF (' ' :: '|' :: ' ' :: []) s.length s [] := by
    rw [← hsep]
    exact hpc
  have h1 := splitGoF_piece_lt ' ' ('|' :: ' ' :: []) s.length s [] piece
    (by rw [← hsep]; exact hocc) le_rfl hpc2
  have h2 := jsTrim_length_le piece
  have h3 : t.length = (jsTrim piece).length := by rw [← hje]
  simp only [List.length_nil, List.length_cons, Nat.zero_add] at h1
  omega

theorem foldl_setAssoc_congr (g g2 : List Char → JVal)
    (props : List (List Char × Bool × List Char))
    (hg : ∀ m ∈ props, g (jsTrim m.2.2) = g2 (jsTrim m.2.2)) :
    ∀ acc, props.foldl (fun acc m => setAssoc acc m.1 (g (jsTrim m.2.2))) acc
      = props.foldl (fun acc m => setAssoc acc m.1 (g2 (jsTrim m.2.2))) acc := by
  induction props with
  | nil => intro acc; rfl
  | cons m ms ih =>
    intro acc
    simp only [List.foldl_cons]
    rw [hg m (by simp)]
    exact ih (fun m2 hm2 => hg m2 (List.mem_cons_of_mem _ hm2)) _

theorem t2jStep_congr {r r2 : List Char → JVal} (s : List Char)
    (h : ∀ t, t.length < s.length → r t = r2 t)
    (hany : s ≠ [] → r (strL "any") = r2 (strL "any")) :
    t2jStep r s = t2jStep r2 s := by
  unfold t2jStep
  by_cases p1 : s = strL "string"
  · simp only [if_pos p1]
  simp only [if_neg p1]
  by_cases p2 : s = strL "number"
  · simp only [if_pos p2]
  simp only [if_neg p2]
  by_cases p3 : s = strL "boolean"
  · simp only [if_pos p3]
  simp only [if_neg p3]
  by_cases p4 : s = strL "null"
  · simp only [if_pos p4]
  simp only [if_neg p4]
  by_cases p5 : s = strL "undefined"
  · simp only [if_pos p5]
  simp only [if_neg p5]
  by_cases p6 : s = strL "any" ∨ s = strL "unknown"
  · simp only [if_pos p6]
  simp only [if_neg p6]
  by_cases p7 : isSufB (strL "[]") s = true
  · simp only [if_pos p7]
    have h2 := isPre_length_le
      (show isPre (strL "[]").reverse s.reverse = true from p7)
    simp only [List.length_reverse] at h2
    have h3 : (strL "[]").length = 2 := rfl
    rw [h (s.take (s.length - 2)) (by rw [List.length_take]; omega)]
  simp only [if_neg p7]
  by_cases p8 : occursSub (strL "React.FC<") s = true ∨
      occursSub (strL "FunctionComponent<") s = true
  · simp only [if_pos p8]
    cases hfc : fcArgExtract s with
    | none => rfl
    | some cap =>
      have hcb := fcArgExtract_length hfc
      have hct := jsTrim_length_le cap
      by_cases p8b : (jsTrim cap).head? = some '\x7b' ∧
          (jsTrim cap).getLast? = some '\x7d'
      · simp only [if_pos p8b]
        rw [h (jsTrim cap) (by omega)]
      · simp only [if_neg p8b]
  simp only [if_neg p8]
  by_cases p9 : s.head? = some '\x7b' ∧ s.getLast? = some '\x7d'
  · simp only [if_pos p9]
    have hfold := foldl_setAssoc_congr r r2 (propScan s)
      (fun m hm => by
        have hb := propScanF_ty_le s.length s m hm
        have ht := jsTrim_length_le m.2.2
        exact h _ (by omega)) []
    rw [hfold]
  simp only [if_neg p9]
  by_cases p10 : occursSub sepU s = true
  · simp only [if_pos p10]
    have hmap : ((splitOn sepU s).map jsTrim).map r
        = ((splitOn sepU s).map jsTrim).map r2 :=
      List.map_congr_left (fun t htm => h t (union_member_bound p10 htm))
    rcases hnn : ((splitOn sepU s).map jsTrim).filter
        (fun t => !(t == strL "null" || t == strL "undefined")) with
      - | ⟨t0, - | ⟨t1, tl⟩⟩ <;>
      cases hha : ((splitOn sepU s).map jsTrim).any
        (fun t => t == strL "null" || t == strL "undefined") <;>
      simp only [hnn, hha, hmap]
    have ht0 : t0 ∈ (splitOn sepU s).map jsTrim := by
      have : t0 ∈ ((splitOn sepU s).map jsTrim).filter
          (fun t => !(t == strL "null" || t == strL "undefined")) := by
        rw [hnn]
        simp
      exact List.mem_of_mem_filter this
    rw [h t0 (union_member_bound p10 ht0)]
  simp only [if_neg p10]
  by_cases p11 : occursSub (strL "=>") s = true ∨ s.head? = some '('
  · simp only [if_pos p11]
    have hs : s ≠ [] := by
      rcases p11 with hx | hx
      · intro he
        rw [he] at hx
        exact absurd hx (by decide)
      · intro he
        rw [he] at hx
        exact Option.noConfusion hx
    cases hfm : funcSigMatch s with
    | none => rw [hany hs]
    | some pr =>
      obtain ⟨ps, r4⟩ := pr
      dsimp only
      have hb := funcSigMatch_bounds s ps r4 hfm
      have hret : r (jsTrim r4) = r2 (jsTrim r4) := by
        have hj := jsTrim_length_le r4
        exact h _ (by omega)
      have hpar : ((if jsTrim ps = [] then []
          else (splitOn (strL ",") ps).map parseParam).map (fun p =>
            JVal.obj [(strL "name", JVal.str p.1), (strL "schema", r p.2)]))
          = ((if jsTrim ps = [] then []
          else (splitOn (strL ",") ps).map parseParam).map (fun p =>
            JVal.obj [(strL "name", JVal.str p.1), (strL "schema", r2 p.2)])) := by
        apply List.map_congr_left
        intro p hp
        have hrp : r p.2 = r2 p.2 := by
          by_cases hemp : jsTrim ps = []
          · rw [if_pos hemp] at hp
            exact absurd hp (by simp)
          · rw [if_neg hemp] at hp
            rcases List.mem_map.mp hp with ⟨q, hq, hpq⟩
            rcases parseParam_ty_bound q with hca | hcb2
            · rw [← hpq, hca]
              exact hany hs
            · have hq1 := splitGoF_piece_le (strL ",") ps.length ps [] q hq
              simp only [List.length_nil, Nat.zero_add] at hq1
              rw [← hpq]
              exact h _ (by omega)
        rw [hrp]
      rw [hret, hpar]
  simp only [if_neg p11]

theorem t2jF_any (f : Nat) (h : 1 ≤ f) : t2jF f (strL "any") = JVal.obj [] := by
  cases f with
  | zero => omega
  | succ g =>
    show t2jStep (t2jF g) (strL "any") = JVal.obj []
    unfold t2jStep
    rw [if_neg (by decide), if_neg (by decide), if_neg (by decide),
      if_neg (by decide), if_neg (by decide), if_pos (Or.inl rfl)]

theorem t2jF_irrel : ∀ n f g s, s.length ≤ n → s.length < f → s.length < g →
    t2jF f s = t2jF g s := by
  intro n
  induction n with
  | zero =>
    intro f g s hs hf hg
    obtain ⟨f2, rfl⟩ : ∃ f2, f = f2 + 1 := ⟨f - 1, by omega⟩
    obtain ⟨g2, rfl⟩ : ∃ g2, g = g2 + 1 := ⟨g - 1, by omega⟩
    have hnil : s = [] := List.length_eq_zero.mp (by omega)
    subst hnil
    show t2jStep (t2jF f2) [] = t2jStep (t2jF g2) []
    exact t2jStep_congr [] (fun t ht => by simp at ht)
      (fun hne => absurd rfl hne)
  | succ m ih =>
    intro f g s hs hf hg
    obtain ⟨f2, rfl⟩ : ∃ f2, f = f2 + 1 := ⟨f - 1, by omega⟩
    obtain ⟨g2, rfl⟩ : ∃ g2, g = g2 + 1 := ⟨g - 1, by omega⟩
    show t2jStep (t2jF f2) s = t2jStep (t2jF g2) s
    refine t2jStep_congr s (fun t ht => ih f2 g2 t (by omega) (by omega) (by omega)) ?_
    intro hne
    have hpos : 1 ≤ s.length := by
      cases s with
      | nil => exact absurd rfl hne
      | cons c cs => simp
    rw [t2jF_any f2 (by omega), t2jF_any g2 (by omega)]

theorem typeToJsonSchema_fuel {f : Nat} {s : List Char} (h : s.length < f) :
    t2jF f s = typeToJsonSchema s :=
  t2jF_irrel s.length f (s.length + 1) s le_rfl h (Nat.lt_succ_self _)

theorem t2j_collapse_aux (A B : List Char) (b : Char) (bs : List Char)
    (htrim : jsTrim A = A)
    (hno : occursSub sepU A = false)
    (hend : isSufB (strL " |") A = false)
    (hnull : A ≠ strL "null") (hundef : A ≠ strL "undefined")
    (hfc1 : occursSub (strL "React.FC<") A = false)
    (hfc2 : occursSub (strL "FunctionComponent<") A = false)
    (hB1 : occursSub sepU B = false)
    (hB2 : jsTrim B = B)
    (hB3 : (B == strL "null" || B == strL "undefined") = true)
    (hBr : B.reverse = b :: bs)
    (hb1 : b ≠ ']') (hb2 : b ≠ '\x7d')
    (hBfc1 : occursSub (strL "React.FC<") (sepU ++ B) = false)
    (hBfc2 : occursSub (strL "FunctionComponent<") (sepU ++ B) = false) :
    typeToJsonSchema (A ++ sepU ++ B)
      = jsSetField (typeToJsonSchema A) (strL "nullable") (JVal.bool true) := by
  have hsep : sepU = ' ' :: '|' :: ' ' :: [] := rfl
  have hslen : (A ++ sepU ++ B).length = A.length + 3 + B.length := by
    rw [hsep]
    simp only [List.length_append, List.length_cons, List.length_nil]
  have hspmem : ' ' ∈ A ++ sepU ++ B := by
    rw [hsep]
    simp
  have hsrev : (A ++ sepU ++ B).reverse = b :: (bs ++ (sepU.reverse ++ A.reverse)) := by
    rw [List.reverse_append, List.reverse_append, hBr]
    simp [List.append_assoc]
  have harr : isSufB (strL "[]") (A ++ sepU ++ B) = false := by
    unfold isSufB
    rw [hsrev]
    have hbne : (']' == b) = false := beq_eq_false_iff_ne.mpr (fun hh => hb1 hh.symm)
    rw [show (strL "[]").reverse = ']' :: '[' :: [] from rfl]
    simp [isPre, hbne]
  have hlast : (A ++ sepU ++ B).getLast? = some b := by
    rw [← List.head?_reverse, hsrev]
    rfl
  have hobj : ¬((A ++ sepU ++ B).head? = some '\x7b' ∧
      (A ++ sepU ++ B).getLast? = some '\x7d') := by
    rintro ⟨-, hcl⟩
    rw [hlast] at hcl
    exact hb2 (by injection hcl)
  have hassoc : A ++ sepU ++ B = A ++ (' ' :: (('|' :: ' ' :: []) ++ B)) := by
    rw [List.append_assoc, hsep]
    rfl
  have hfcs1 : occursSub (strL "React.FC<") (A ++ sepU ++ B) = false := by
    have hj := @occursSub_append_junction (strL "React.FC<") A
      (('|' :: ' ' :: []) ++ B) ' ' hfc1 hBfc1 (by decide)
    rw [hassoc]
    exact hj
  have hfcs2 : occursSub (strL "FunctionComponent<") (A ++ sepU ++ B) = false := by
    have hj := @occursSub_append_junction (strL "FunctionComponent<") A
      (('|' :: ' ' :: []) ++ B) ' ' hfc2 hBfc2 (by decide)
    rw [hassoc]
    exact hj
  have hocc : occursSub sepU (A ++ sepU ++ B) = true := by
    rw [hsep]
    exact occursSub_append_self ' ' ('|' :: ' ' :: []) A B
  have H : ∀ p, p < A.length →
      isPre (' ' :: '|' :: ' ' :: []) ((A ++ (' ' :: '|' :: ' ' :: []) ++ B).drop p)
        = false := by
    intro p hp
    have hdrop : (A ++ (' ' :: '|' :: ' ' :: []) ++ B).drop p
        = A.drop p ++ ((' ' :: '|' :: ' ' :: []) ++ B) := by
      rw [List.append_assoc]
      rw [List.drop_append_of_le_length (by omega)]
    rw [hdrop]
    rcases hD : A.drop p with - | ⟨x, - | ⟨y, - | ⟨z, rest⟩⟩⟩
    · exfalso
      have hlenD := congrArg List.length hD
      simp only [List.length_drop, List.length_nil] at hlenD
      omega
    · have hpipe : ('|' == ' ') = false := by decide
      simp [isPre, hpipe]
    · by_contra hcon
      have htrue : isPre (' ' :: '|' :: ' ' :: [])
          ([x, y] ++ ((' ' :: '|' :: ' ' :: []) ++ B)) = true := by
        cases hx : isPre (' ' :: '|' :: ' ' :: [])
            ([x, y] ++ ((' ' :: '|' :: ' ' :: []) ++ B)) with
        | true => rfl
        | false => exact absurd hx hcon
      have hxy : x = ' ' ∧ y = '|' := by
        simp only [List.cons_append, List.nil_append, isPre, Bool.and_eq_true,
          beq_iff_eq] at htrue
        exact ⟨htrue.1.symm, htrue.2.1.symm⟩
      have hsuf : isSufB (strL " |") A = true := by
        unfold isSufB
        have hA0 : A = A.take p ++ [' ', '|'] := by
          conv_lhs => rw [← List.take_append_drop p A]
          rw [hD, hxy.1, hxy.2]
        have hA : A.reverse = ('|' :: ' ' :: []) ++ (A.take p).reverse := by
          conv_lhs => rw [hA0]
          rw [List.reverse_append]
          rfl
        rw [hA]
        exact isPre_self_append _ _
      rw [hend] at hsuf
      exact Bool.noConfusion hsuf
    · by_contra hcon
      have htrue : isPre (' ' :: '|' :: ' ' :: [])
          ((x :: y :: z :: rest) ++ ((' ' :: '|' :: ' ' :: []) ++ B)) = true := by
        cases hx : isPre (' ' :: '|' :: ' ' :: [])
            ((x :: y :: z :: rest) ++ ((' ' :: '|' :: ' ' :: []) ++ B)) with
        | true => rfl
        | false => exact absurd hx hcon
      have hd2 : isPre (' ' :: '|' :: ' ' :: []) (x :: y :: z :: rest) = true :=
        isPre_append_left htrue (by simp)
      have hd3 := isPre_drop_of_not_occurs hno p
      rw [hD] at hd3
      rw [← hsep] at hd2
      rw [hd2] at hd3
      exact Bool.noConfusion hd3
  have hflen : A.length + 1 ≤ (A ++ sepU ++ B).length := by omega
  have hsplit2 : splitOn sepU (A ++ sepU ++ B) = [A, B] := by
    show splitGoF sepU (A ++ sepU ++ B).length (A ++ sepU ++ B) [] = [A, B]
    calc splitGoF sepU (A ++ sepU ++ B).length (A ++ sepU ++ B) []
        = (([] : List Char).reverse ++ A) ::
            splitGoF sepU ((A ++ sepU ++ B).length - (A.length + 1)) B [] :=
          splitGoF_boundary ' ' ('|' :: ' ' :: []) A ((A ++ sepU ++ B).length) [] B
            hflen H
      _ = [A, B] := by
          rw [splitGoF_no_occ sepU _ B [] hB1]
          simp
  have htypes : (splitOn sepU (A ++ sepU ++ B)).map jsTrim = [A, B] := by
    rw [hsplit2]
    simp [htrim, hB2]
  have hA1 : (A == strL "null") = false := beq_eq_false_iff_ne.mpr hnull
  have hA2 : (A == strL "undefined") = false := beq_eq_false_iff_ne.mpr hundef
  have hfA : (!(A == strL "null" || A == strL "undefined")) = true := by
    rw [hA1, hA2]
    rfl
  have hfB : (!(B == strL "null" || B == strL "undefined")) = false := by
    rw [hB3]
    rfl
  have hfil : [A, B].filter (fun t => !(t == strL "null" || t == strL "undefined"))
      = [A] := by
    simp only [List.filter_cons, List.filter_nil, hfA, hfB]
    simp
  have hany2 : [A, B].any (fun t => t == strL "null" || t == strL "undefined")
      = true := by
    simp only [List.any_cons, List.any_nil, hB3]
    simp
  show t2jStep (t2jF (A ++ sepU ++ B).length) (A ++ sepU ++ B)
      = jsSetField (typeToJsonSchema A) (strL "nullable") (JVal.bool true)
  unfold t2jStep
  rw [if_neg (fun he => absurd (he ▸ hspmem) (by decide)),
    if_neg (fun he => absurd (he ▸ hspmem) (by decide)),
    if_neg (fun he => absurd (he ▸ hspmem) (by decide)),
    if_neg (fun he => absurd (he ▸ hspmem) (by decide)),
    if_neg (fun he => absurd (he ▸ hspmem) (by decide)),
    if_neg (fun hor => hor.elim (fun he => absurd (he ▸ hspmem) (by decide))
      (fun he => absurd (he ▸ hspmem) (by decide))),
    if_neg (ne_true_of_eq_false harr),
    if_neg (fun hor => hor.elim
      (fun he => by rw [hfcs1] at he; exact Bool.noConfusion he)
      (fun he => by rw [hfcs2] at he; exact Bool.noConfusion he)),
    if_neg hobj, if_pos hocc, htypes, hfil, hany2]
  show jsSetField (t2jF (A ++ sepU ++ B).length A) (strL "nullable") (JVal.bool true)
      = jsSetField (typeToJsonSchema A) (strL "nullable") (JVal.bool true)
  rw [typeToJsonSchema_fuel (show A.length < (A ++ sepU ++ B).length from by omega)]

/-! ## Claim theorems -/

/-- C1: the claim states that the module
`export const a = 1; export default function f(){}; export { a as b };`
enumerates exactly the names `["a", "default", "b"]`.  Evaluating the
embedded `exportNames` walker of `api.mjs` at this module shows that the
default-exported function declaration contributes its identifier `f`, not
`"default"`: the branch that would push `"default"` for a function or
class with a `default` modifier sits behind an `else if` whose preceding
branch already consumes every exported function declaration, so it is
unreachable and the enumeration is `["a", "f", "b"]`. -/
theorem c1_export_enum_failing_eval :
    exportNames c1Module = [strL "a", strL "f", strL "b"] ∧
      exportNames c1Module ≠ [strL "a", strL "default", strL "b"] := by
  constructor
  · rfl
  · decide

/-- C2 counterexample: the claim states that parsing
`"{ a: string; b?: number }"` yields properties for both `a` and `b` with
`required = ["a"]`.  The object branch of `typeToJsonSchema` extracts
members with the regex `/(\w+)(\?)?:\s*([^;]+);/g`, which requires a
trailing semicolon, so the last member `b?: number` (followed by `}` with
no `;`) is never matched and the claimed schema is not produced. -/
theorem c2_object_last_member_counterexample :
    typeToJsonSchema (strL "\x7b a: string; b?: number \x7d") ≠
      JVal.obj [(strL "type", JVal.str (strL "object")),
        (strL "properties", JVal.obj
          [(strL "a", JVal.obj [(strL "type", JVal.str (strL "string"))]),
           (strL "b", JVal.obj [(strL "type", JVal.str (strL "number"))])]),
        (strL "required", JVal.arr [JVal.str (strL "a")])] :=
  fun h => absurd (congrArg propsFieldCount h) (by decide)

/-- C2 as amended: on `"{ a: string; b?: number }"` the code produces an
object schema whose `properties` contain only the semicolon-terminated
member `a`, with `required = ["a"]`; the final member, which lacks a
trailing semicolon, is dropped by the member regex. -/
theorem c2_object_members_amended :
    typeToJsonSchema (strL "\x7b a: string; b?: number \x7d") =
      JVal.obj [(strL "type", JVal.str (strL "object")),
        (strL "properties", JVal.obj
          [(strL "a", JVal.obj [(strL "type", JVal.str (strL "string"))])]),
        (strL "required", JVal.arr [JVal.str (strL "a")])] := rfl

/-- C5 counterexample: the claim states that splitting the object text
`"{a: (x:number)=>string; b: number}"` into top-level members at `;`
yields exactly two segments.  The code has no nesting-aware splitter: its
member extraction is the regex scan `propScan`, and on this input it
yields exactly one member (`b: number}` has no trailing `;` and is never
matched), not two. -/
theorem c5_member_split_counterexample :
    ¬ (propScan (strL "\x7ba: (x:number)=>string; b: number\x7d")).length = 2 := by
  decide

/-- C5 as amended: the member extraction on
`"{a: (x:number)=>string; b: number}"` yields exactly the one member `a`
with type text `(x:number)=>string` (its capture runs to the next `;`,
which here lies outside the parentheses, so the function type happens to
stay intact); the member `b`, lacking a trailing semicolon, is not
extracted at all. -/
theorem c5_member_split_amended :
    propScan (strL "\x7ba: (x:number)=>string; b: number\x7d") =
      [(strL "a", false, strL "(x:number)=>string")] := rfl

/-- C6: for `"(x: number, y: string) => boolean"` the synthesized fragment
has a `parameters` list of length 2 with names `x` and `y` and schemas
`{type:"number"}` and `{type:"string"}`, and `returns = {type:"boolean"}`. -/
theorem c6_function_signature_schema :
    jsGet (typeToJsonSchema (strL "(x: number, y: string) => boolean"))
        (strL "parameters") =
      some (JVal.arr
        [JVal.obj [(strL "name", JVal.str (strL "x")),
          (strL "schema", JVal.obj [(strL "type", JVal.str (strL "number"))])],
         JVal.obj [(strL "name", JVal.str (strL "y")),
          (strL "schema", JVal.obj [(strL "type", JVal.str (strL "string"))])]]) ∧
    jsGet (typeToJsonSchema (strL "(x: number, y: string) => boolean"))
        (strL "returns") =
      some (JVal.obj [(strL "type", JVal.str (strL "boolean"))]) :=
  ⟨rfl, rfl⟩

/-- C9: union classification keys on the exact three-character separator
`" | "`: the type string `"A|null"`, with no spaces around the pipe,
matches no structured case and falls through to the opaque
string-description fallback (neither a `oneOf` nor a `nullable` result). -/
theorem c9_unspaced_pipe_fallback :
    typeToJsonSchema (strL "A|null") =
      JVal.obj [(strL "type", JVal.str (strL "string")),
        (strL "description", JVal.str (strL "TypeScript type: A|null"))] := rfl

/-- C3 counterexample: the claim states that for every recognized
functional-component wrapper the extracted props argument is the full
balanced bracketed span.  The props-name extraction of `getDetailedType`
uses `/FC<([^>]+)>/`, whose `[^>]+` cannot cross a `>`: on
`"React.FC<Foo<Bar>>"` it captures `"Foo<Bar"`, not the balanced span
`"Foo<Bar>"`. -/
theorem c3_props_name_truncation_counterexample :
    fcNameExtract (strL "React.FC<Foo<Bar>>") = some (strL "Foo<Bar") ∧
      fcNameExtract (strL "React.FC<Foo<Bar>>") ≠ some (strL "Foo<Bar>") := by
  constructor
  · rfl
  · decide

/-- C3 as amended: the generic-argument extraction used by
`typeToJsonSchema` (regex `/<(.+)>/s`) takes the span between the first
`<` and the last `>`, so for every wrapper string `React.FC<arg>` — `arg`
arbitrary and non-empty, spanning multiple lines or containing nested
angle brackets — it recovers `arg` in full; the props-NAME extraction of
`getDetailedType` (regex `/FC<([^>]+)>/`) instead stops at the first `>`
and truncates nested arguments (see the counterexample). -/
theorem c3_fc_argument_extraction_amended (arg : List Char) (h : arg ≠ []) :
    fcArgExtract (strL "React.FC<" ++ arg ++ ['>']) = some arg := by
  have hassoc : strL "React.FC<" ++ arg ++ ['>']
      = (strL "React.FC<" ++ arg) ++ ['>'] := by
    rw [List.append_assoc]
  have h1 : splitAtLastChar '>' (strL "React.FC<" ++ arg ++ ['>'])
      = some (strL "React.FC<" ++ arg, []) := by
    rw [hassoc]
    unfold splitAtLastChar
    rw [List.reverse_append]
    simp [splitAtFirstChar]
  have h2 : splitAtFirstChar '<' (strL "React.FC<" ++ arg)
      = some (strL "React.FC", arg) := by
    simp [splitAtFirstChar, strL]
  unfold fcArgExtract
  rw [h1]
  dsimp only
  rw [h2]
  dsimp only
  rw [if_neg h]

/-- Witness for the amended C3 at the nested-angle-bracket argument
`Foo<Bar>`: the schema-side extraction recovers the full span. -/
theorem c3_fc_argument_extraction_witness :
    fcArgExtract (strL "React.FC<Foo<Bar>>") = some (strL "Foo<Bar>") := by
  have h := c3_fc_argument_extraction_amended (strL "Foo<Bar>") (by decide)
  have he : strL "React.FC<" ++ strL "Foo<Bar>" ++ ['>']
      = strL "React.FC<Foo<Bar>>" := by decide
  rw [he] at h
  exact h

/-- C10: every type string that reaches the function case (it contains
`=>` anywhere or starts with `(`, and matches none of the earlier primitive,
array, component, object or union cases) but does not match the signature
regex `/\(([^)]*)\)\s*=>\s*(.+)/` still produces a Function description
fragment with an empty `parameters` list and `returns = {}` (the schema of
the defaulted return type `any`). -/
theorem c10_function_fallback_fragment (s : List Char)
    (h1 : s ≠ strL "string") (h2 : s ≠ strL "number") (h3 : s ≠ strL "boolean")
    (h4 : s ≠ strL "null") (h5 : s ≠ strL "undefined")
    (h6 : s ≠ strL "any") (h7 : s ≠ strL "unknown")
    (h8 : isSufB (strL "[]") s = false)
    (h9 : occursSub (strL "React.FC<") s = false)
    (h10 : occursSub (strL "FunctionComponent<") s = false)
    (h11 : ¬(s.head? = some '\x7b' ∧ s.getLast? = some '\x7d'))
    (h12 : occursSub sepU s = false)
    (h13 : occursSub (strL "=>") s = true ∨ s.head? = some '(')
    (h14 : funcSigMatch s = none) :
    typeToJsonSchema s =
      JVal.obj [(strL "type", JVal.str (strL "object")),
        (strL "description", JVal.str (strL "Function: " ++ s)),
        (strL "parameters", JVal.arr []),
        (strL "returns", JVal.obj [])] := by
  have hs : s ≠ [] := by
    rcases h13 with h13 | h13
    · intro he
      rw [he] at h13
      exact absurd h13 (by decide)
    · intro he
      rw [he] at h13
      exact Option.noConfusion h13
  have hlen : 1 ≤ s.length := by
    cases s with
    | nil => exact absurd rfl hs
    | cons c cs => simp
  show t2jStep (t2jF s.length) s = _
  unfold t2jStep
  rw [if_neg h1, if_neg h2, if_neg h3, if_neg h4, if_neg h5,
    if_neg (by simp [h6, h7]),
    if_neg (by simp [h8]),
    if_neg (by simp [h9, h10]),
    if_neg h11,
    if_neg (by simp [h12]),
    if_pos h13, h14, t2jF_any s.length hlen]

/-- Witness for C10 at the parenthesized non-function type `(string)`:
it yields a Function fragment with empty parameters and `returns = {}`,
not the inner type's schema. -/
theorem c10_function_fallback_witness :
    typeToJsonSchema (strL "(string)") =
      JVal.obj [(strL "type", JVal.str (strL "object")),
        (strL "description", JVal.str (strL "Function: (string)")),
        (strL "parameters", JVal.arr []),
        (strL "returns", JVal.obj [])] := by
  have h := c10_function_fallback_fragment (strL "(string)")
    (by decide) (by decide) (by decide) (by decide) (by decide) (by decide)
    (by decide) (by decide) (by decide) (by decide) (by decide) (by decide)
    (Or.inr (by decide)) (by decide)
  simpa using h

/-- C4 as amended: for every type string of the form `A | null` or
`A | undefined` where `A` is a single, trimmed union member — it contains
no ` | ` separator and does not end in ` |` (so the appended separator is
the only split point), it is not itself `null` or `undefined`, and it
contains no component-wrapper marker (which an earlier branch would
intercept) — the synthesized schema is exactly `synthesize(parse(A))`
with `nullable: true` added: the two-member union collapses to the
non-null member's fragment rather than a `oneOf`. -/
theorem c4_nullable_collapse_amended (A : List Char)
    (htrim : jsTrim A = A)
    (hno : occursSub sepU A = false)
    (hend : isSufB (strL " |") A = false)
    (hnull : A ≠ strL "null") (hundef : A ≠ strL "undefined")
    (hfc1 : occursSub (strL "React.FC<") A = false)
    (hfc2 : occursSub (strL "FunctionComponent<") A = false) :
    typeToJsonSchema (A ++ strL " | null")
        = jsSetField (typeToJsonSchema A) (strL "nullable") (JVal.bool true) ∧
    typeToJsonSchema (A ++ strL " | undefined")
        = jsSetField (typeToJsonSchema A) (strL "nullable") (JVal.bool true) := by
  constructor
  · have hx := t2j_collapse_aux A (strL "null") 'l' (strL "lun")
      htrim hno hend hnull hundef hfc1 hfc2
      (by decide) (by decide) (by decide) (by decide) (by decide) (by decide)
      (by decide) (by decide)
    have hsh : A ++ sepU ++ strL "null" = A ++ strL " | null" := by
      rw [List.append_assoc]
      rfl
    rw [← hsh]
    exact hx
  · have hx := t2j_collapse_aux A (strL "undefined") 'd' (strL "enifednu")
      htrim hno hend hnull hundef hfc1 hfc2
      (by decide) (by decide) (by decide) (by decide) (by decide) (by decide)
      (by decide) (by decide)
    have hsh : A ++ sepU ++ strL "undefined" = A ++ strL " | undefined" := by
      rw [List.append_assoc]
      rfl
    rw [← hsh]
    exact hx

/-- Witness for the amended C4 at `A = "string"`. -/
theorem c4_nullable_collapse_witness :
    typeToJsonSchema (strL "string | null")
      = jsSetField (typeToJsonSchema (strL "string"))
          (strL "nullable") (JVal.bool true) := by
  have h := (c4_nullable_collapse_amended (strL "string")
    (by decide) (by decide) (by decide) (by decide) (by decide)
    (by decide) (by decide)).1
  have hsh : strL "string" ++ strL " | null" = strL "string | null" := by decide
  rw [hsh] at h
  exact h

/-- C4 counterexample: the claim quantifies over every `A` that is not
itself null or undefined; `A = "string | number"` is such an `A`, and on
`"string | number | null"` the union branch splits into three members and
produces a three-way `oneOf` (the null member included), not
`synthesize(parse("string | number"))` with `nullable: true`. -/
theorem c4_union_three_members_counterexample :
    typeToJsonSchema (strL "string | number | null") =
      JVal.obj [(strL "oneOf", JVal.arr
        [JVal.obj [(strL "type", JVal.str (strL "string"))],
         JVal.obj [(strL "type", JVal.str (strL "number"))],
         JVal.obj [(strL "type", JVal.str (strL "null"))]])] ∧
    typeToJsonSchema (strL "string | number | null") ≠
      jsSetField (typeToJsonSchema (strL "string | number"))
        (strL "nullable") (JVal.bool true) :=
  ⟨rfl, fun h => absurd (congrArg objFieldCount h) (by decide)⟩

/-- C7: when the manifest loads and parses but lacks a `main` field, the
invocation fails with the manifest error thrown by `resolveMainFile`,
surfaced by `fetchTypes` as a structured failure value — never a document
with some properties filled in. -/
theorem c7_missing_main_manifest_error (inputPath : List Char)
    (m : ManifestJson) (oracle : List Char → List (List Char × List Char))
    (h : m.main = none) :
    fetchTypes inputPath (Except.ok m) oracle =
      FetchOutcome.failure (strL "No \"main\" field found in package.json") := by
  simp [fetchTypes, resolveMainFile, mainFalsy, h]

/-- Witness for C7 at a concrete directory and manifest. -/
theorem c7_missing_main_manifest_error_witness :
    fetchTypes (strL "/pkg") (Except.ok ⟨none⟩) (fun _ => []) =
      FetchOutcome.failure (strL "No \"main\" field found in package.json") :=
  c7_missing_main_manifest_error (strL "/pkg") ⟨none⟩ (fun _ => []) rfl

/-- C8: for every module declaration list, the name list produced by the
`exportNames` walker of `api.mjs` contains no duplicates, and it equals
the raw source-order name sequence deduplicated to first occurrences
(every push site is guarded by an `includes` check). -/
theorem c8_export_names_nodup (decls : List TopDecl) :
    (exportNames decls).Nodup ∧
      exportNames decls = firstDedup (rawExportNames decls) := by
  constructor
  · exact foldl_preserve List.Nodup visitNode
      (fun b a hb => visitNode_nodup b a hb) decls [] List.nodup_nil
  · exact foldl_visitNode_eq decls []

end ModuleTyper
